import Mathlib

/-! Shallow embedding of the deno-slotmap library (src/lib.ts): a generational
arena `SlotMap` and a sparse overlay `SecondaryMap`, both storing slots
tagged with an integer generation. JS numbers used as generation counters
are embedded as `Int`; slot indices as `Nat` (a negative or out-of-range
index reads back as absent, which `Option` models). JS arrays become Lean
lists; a sparse-array hole and a stored `null` are observationally the same
through every public operation, so both are `none`.
-/

/-- JS `type Generation = number`: a generation counter. -/
abbrev Generation := Int

/-- JS `type Idx = number`: a slot index. -/
abbrev Idx := Nat

/-- JS `export type Entity = [Generation, Idx]`. -/
abbrev Entity := Generation × Idx

/-- JS `class SlotMap<C>` with `private store: Array<[Generation, C]>`. -/
structure SlotMap (C : Type) where
  store : List (Generation × C)

variable {C : Type}

/-- `get(entity)`: `const slot = this.store[entity[1]]; return (slot && entity[0] == slot[0]) ? slot[1] : null`. -/
def SlotMap.get (m : SlotMap C) (e : Entity) : Option C :=
  match m.store.get? e.2 with
  | some slot => if e.1 = slot.1 then some slot.2 else none
  | none => none

/-- The `for (const slot of this.store)` loop of `SlotMap.insert`, carrying the
running `idx`; returns the updated store together with the created entity.
On the first slot with odd generation it increments the generation, stores the
component and returns the new generation with that index; if the loop runs out
it pushes `[0, comp]` and returns generation 0 at the old length. -/
def SlotMap.insertGo (comp : C) : List (Generation × C) → Nat → List (Generation × C) × Entity
  | [], idx => ([(0, comp)], (0, idx))
  | slot :: rest, idx =>
    if slot.1 % 2 ≠ 0 then
      ((slot.1 + 1, comp) :: rest, (slot.1 + 1, idx))
    else
      let r := SlotMap.insertGo comp rest (idx + 1)
      (slot :: r.1, r.2)

/-- `insert(comp)`: scan the store from index 0 for a vacant slot. -/
def SlotMap.insert (m : SlotMap C) (comp : C) : SlotMap C × Entity :=
  let r := SlotMap.insertGo comp m.store 0
  (⟨r.1⟩, r.2)

/-- `remove(entity)`: on a generation match, increment the generation of the
slot (the stored component is not cleared) and return the component. -/
def SlotMap.remove (m : SlotMap C) (e : Entity) : SlotMap C × Option C :=
  match m.store.get? e.2 with
  | some slot =>
    if e.1 = slot.1 then (⟨m.store.set e.2 (slot.1 + 1, slot.2)⟩, some slot.2)
    else (m, none)
  | none => (m, none)

/-- The generator loop of `SlotMap.iter`: slots with even generation are
yielded with their entity, in store order. -/
def SlotMap.iterGo : List (Generation × C) → Nat → List (Entity × C)
  | [], _ => []
  | slot :: rest, idx =>
    (if slot.1 % 2 = 0 then [((slot.1, idx), slot.2)] else []) ++ SlotMap.iterGo rest (idx + 1)

/-- `iter()`: the finite sequence the generator yields (the generator does not
mutate the map; the embedding is a pure function of the state). -/
def SlotMap.iter (m : SlotMap C) : List (Entity × C) :=
  SlotMap.iterGo m.store 0

/-- `len()`: counts the elements of one `iter()` traversal. -/
def SlotMap.len (m : SlotMap C) : Nat := m.iter.length

/-- `is_empty()`: true exactly when one `iter()` traversal yields nothing. -/
def SlotMap.is_empty (m : SlotMap C) : Bool := m.iter.isEmpty

/-- The mutating public operations of `SlotMap` (`get`, `iter`, `len` and
`is_empty` read the state without changing it). -/
inductive Op (C : Type) where
  | ins (v : C)
  | rem (e : Entity)

/-- Run one public mutating operation, keeping the new state. -/
def SlotMap.apply (m : SlotMap C) : Op C → SlotMap C
  | .ins v => (m.insert v).1
  | .rem e => (m.remove e).1

/-- Run a sequence of public mutating operations from a state. -/
def SlotMap.applyAll (m : SlotMap C) (ops : List (Op C)) : SlotMap C :=
  ops.foldl SlotMap.apply m

/-- JS `class SecondaryMap<C>` with `private store: Array<null | [Generation, C]>`.
A hole of the sparse JS array and a stored `null` are both `none`. -/
structure SecondaryMap (C : Type) where
  store : List (Option (Generation × C))

/-- JS `Array.prototype.fill(v, start, stop)`: fills the positions of the
existing array lying in the clamped range from `start` up to, excluding,
`stop`. Positions beyond the current length are untouched, so an empty or
inverted range leaves the array as it was. -/
def jsFill {α : Type} (l : List (Option α)) (v : Option α) (start stop : Nat) :
    List (Option α) :=
  l.enum.map fun p => if start ≤ p.1 ∧ p.1 < stop then v else p.2

/-- JS `arr[i] = x` on an array: sets in place when `i` is in bounds, else
grows the array to length `i + 1`, the intermediate positions being holes
(read back as absent). -/
def jsSetGrow {α : Type} (l : List (Option α)) (i : Nat) (x : Option α) :
    List (Option α) :=
  if i < l.length then l.set i x
  else l ++ List.replicate (i - l.length) none ++ [x]

/-- `SecondaryMap.insert(entity, comp)`: the conditional `fill` of the source
(whose range is empty whenever its guard `length >= entity[1]` holds, see
`jsFill_empty_range`) followed by the write `this.store[entity[1]] = [entity[0], comp]`. -/
def SecondaryMap.insert (m : SecondaryMap C) (e : Entity) (comp : C) : SecondaryMap C :=
  let st := if m.store.length ≥ e.2 then jsFill m.store none m.store.length e.2 else m.store
  ⟨jsSetGrow st e.2 (some (e.1, comp))⟩

/-- `SecondaryMap.get(entity)`: absent on an out-of-range index, a hole, a
`null` slot or a generation mismatch. -/
def SecondaryMap.get (m : SecondaryMap C) (e : Entity) : Option C :=
  match m.store.get? e.2 with
  | some (some slot) => if e.1 = slot.1 then some slot.2 else none
  | _ => none

/-- `SecondaryMap.remove(entity)`: on a generation match, clear the slot to
`null` and return the component. -/
def SecondaryMap.remove (m : SecondaryMap C) (e : Entity) : SecondaryMap C × Option C :=
  match m.store.get? e.2 with
  | some (some slot) =>
    if e.1 = slot.1 then (⟨m.store.set e.2 none⟩, some slot.2) else (m, none)
  | _ => (m, none)

/-- The generator loop of `SecondaryMap.iter`: non-null slots are yielded with
the entity rebuilt from the stored generation, in store order. -/
def SecondaryMap.iterGo : List (Option (Generation × C)) → Nat → List (Entity × C)
  | [], _ => []
  | slot :: rest, idx =>
    (match slot with
     | some s => [((s.1, idx), s.2)]
     | none => []) ++ SecondaryMap.iterGo rest (idx + 1)

/-- `SecondaryMap.iter()`: the finite sequence the generator yields. -/
def SecondaryMap.iter (m : SecondaryMap C) : List (Entity × C) :=
  SecondaryMap.iterGo m.store 0

/-- `SecondaryMap.len()`: counts the elements of one `iter()` traversal. -/
def SecondaryMap.len (m : SecondaryMap C) : Nat := m.iter.length

/-- `SecondaryMap.is_empty()`: true exactly when `iter()` yields nothing. -/
def SecondaryMap.is_empty (m : SecondaryMap C) : Bool := m.iter.isEmpty

/-- Exhaustive description of the insertion scan: either every slot has even
generation and the scan appends, or there is a first slot with odd generation
and the scan reuses it. -/
theorem SlotMap.insertGo_cases (v : C) :
    ∀ (store : List (Generation × C)) (k : Nat),
      ((∀ s ∈ store, s.1 % 2 = 0) ∧
        SlotMap.insertGo v store k = (store ++ [(0, v)], (0, k + store.length)))
      ∨ (∃ i g c, store.get? i = some (g, c) ∧ g % 2 ≠ 0 ∧
          (∀ j gj cj, j < i → store.get? j = some (gj, cj) → gj % 2 = 0) ∧
          SlotMap.insertGo v store k = (store.set i (g + 1, v), (g + 1, k + i))) := by
  intro store
  induction store with
  | nil =>
    intro k
    left
    exact ⟨by simp, by simp [SlotMap.insertGo]⟩
  | cons slot rest ih =>
    intro k
    by_cases hpar : slot.1 % 2 = 0
    · rcases ih (k + 1) with ⟨hall, heq⟩ | ⟨i, g, c, hget, hodd, hfirst, heq⟩
      · left
        refine ⟨?_, ?_⟩
        · intro s hs
          rcases List.mem_cons.mp hs with rfl | hs
          · exact hpar
          · exact hall s hs
        · rw [SlotMap.insertGo, if_neg (by simpa using hpar)]
          simp only [heq]
          refine Prod.ext ?_ ?_
          · simp
          · simp; omega
      · right
        refine ⟨i + 1, g, c, by simpa using hget, hodd, ?_, ?_⟩
        · intro j gj cj hj hgetj
          cases j with
          | zero =>
            simp at hgetj
            rw [hgetj] at hpar
            simpa using hpar
          | succ j =>
            exact hfirst j gj cj (by omega) (by simpa using hgetj)
        · rw [SlotMap.insertGo, if_neg (by simpa using hpar)]
          simp only [heq]
          refine Prod.ext ?_ ?_
          · simp [List.set]
          · simp; omega
    · right
      refine ⟨0, slot.1, slot.2, by simp, hpar, by omega, ?_⟩
      rw [SlotMap.insertGo, if_pos (by simpa using hpar)]
      simp [List.set]

/-- A counter never equals its successor. -/
theorem intNeSucc (x : Int) : x ≠ x + 1 := by omega

/-- Bumping an odd counter makes it even. -/
theorem intOddSucc (x : Int) : x % 2 ≠ 0 → (x + 1) % 2 = 0 := by omega

/-- Bumping an even counter makes it odd. -/
theorem intEvenSuccOdd (x : Int) : x % 2 = 0 → (x + 1) % 2 ≠ 0 := by omega

/-- Two bumps strictly increase a counter. -/
theorem intLtAddTwo (x : Int) : x < x + 2 := by omega

/-- Two bumps of an even counter keep it even. -/
theorem intEvenAddTwo (x : Int) : x % 2 = 0 → (x + 2) % 2 = 0 := by omega

/-- A counter is strictly below itself bumped twice. -/
theorem intLtSucc2 (x : Int) : x < x + 1 + 1 := by omega

/-- A counter never equals itself bumped twice. -/
theorem intNeSucc2 (x : Int) : x ≠ x + 1 + 1 := by omega

/-- A counter bumped twice never falls back to or below itself. -/
theorem intNotSucc2Le (x : Int) : ¬ x + 1 + 1 ≤ x := by omega

/-- Reading through an out-of-range index is absent. -/
theorem SlotMap.get_eq_none_oob {m : SlotMap C} {e : Entity}
    (h : m.store.get? e.2 = none) : m.get e = none := by
  simp only [SlotMap.get, h]

/-- Reading an in-range slot compares the generations. -/
theorem SlotMap.get_eq_some_slot {m : SlotMap C} {e : Entity} {g : Generation} {c : C}
    (h : m.store.get? e.2 = some (g, c)) :
    m.get e = if e.1 = g then some c else none := by
  simp only [SlotMap.get, h]

/-- Removing through an out-of-range index changes nothing and is absent. -/
theorem SlotMap.remove_eq_none_oob {m : SlotMap C} {e : Entity}
    (h : m.store.get? e.2 = none) : m.remove e = (m, none) := by
  simp only [SlotMap.remove, h]

/-- Removing an in-range slot compares the generations; on a match it bumps
the generation of the slot, keeping the stored component. -/
theorem SlotMap.remove_eq_some_slot {m : SlotMap C} {e : Entity} {g : Generation} {c : C}
    (h : m.store.get? e.2 = some (g, c)) :
    m.remove e = if e.1 = g then (⟨m.store.set e.2 (g + 1, c)⟩, some c) else (m, none) := by
  simp only [SlotMap.remove, h]

/-- After an insertion, the slot at the returned index stores exactly the
returned generation together with the inserted component. -/
theorem SlotMap.insert_get?_self (m : SlotMap C) (v : C) :
    (m.insert v).1.store.get? (m.insert v).2.2 = some ((m.insert v).2.1, v) := by
  rcases SlotMap.insertGo_cases v m.store 0 with ⟨hall, heq⟩ | ⟨i, g, c, hget, hodd, hfirst, heq⟩
  · simp only [SlotMap.insert, heq]
    simpa using List.get?_concat_length m.store (0, v)
  · have hi : i < m.store.length := by
      rcases List.get?_eq_some.mp hget with ⟨h, _⟩
      exact h
    simp only [SlotMap.insert, heq]
    simpa using List.get?_set_eq_of_lt (g + 1, v) hi

/-- Claim C2: in any state, a `get` with the entity just returned by `insert`
returns the inserted value. -/
theorem slotMap_round_trip : ∀ (C : Type) (m : SlotMap C) (v : C),
    (m.insert v).1.get (m.insert v).2 = some v := by
  intro C m v
  rw [SlotMap.get_eq_some_slot (SlotMap.insert_get?_self m v), if_pos rfl]

/-- Claim C3: removing a just-inserted entity succeeds and returns its value;
afterwards `get` on that entity is absent and a second `remove` is absent too. -/
theorem slotMap_tombstone : ∀ (C : Type) (m : SlotMap C) (v : C),
    ((m.insert v).1.remove (m.insert v).2).2 = some v ∧
    ((m.insert v).1.remove (m.insert v).2).1.get (m.insert v).2 = none ∧
    (((m.insert v).1.remove (m.insert v).2).1.remove (m.insert v).2).2 = none := by
  intro C m v
  have h := SlotMap.insert_get?_self m v
  have hlt : (m.insert v).2.2 < (m.insert v).1.store.length := by
    rcases List.get?_eq_some.mp h with ⟨hh, _⟩
    exact hh
  have hrem : (m.insert v).1.remove (m.insert v).2 =
      (⟨(m.insert v).1.store.set (m.insert v).2.2 ((m.insert v).2.1 + 1, v)⟩, some v) := by
    rw [SlotMap.remove_eq_some_slot h, if_pos rfl]
  have h2 : ((m.insert v).1.remove (m.insert v).2).1.store.get? (m.insert v).2.2 =
      some ((m.insert v).2.1 + 1, v) := by
    rw [hrem]
    simpa using List.get?_set_eq_of_lt ((m.insert v).2.1 + 1, v) hlt
  have hne : (m.insert v).2.1 ≠ (m.insert v).2.1 + 1 := intNeSucc _
  refine ⟨by rw [hrem], ?_, ?_⟩
  · rw [SlotMap.get_eq_some_slot h2, if_neg hne]
  · rw [SlotMap.remove_eq_some_slot h2, if_neg hne]

/-- Claim C5: `insert` reuses the first vacant (odd-generation) slot,
incrementing its generation and returning the new generation with that index;
with no vacant slot it appends a generation-0 slot at the end. -/
theorem slotMap_insert_scan : ∀ (C : Type) (m : SlotMap C) (v : C),
    ((∀ s ∈ m.store, s.1 % 2 = 0) →
      m.insert v = (⟨m.store ++ [(0, v)]⟩, (0, m.store.length))) ∧
    (∀ i g c, m.store.get? i = some (g, c) → g % 2 ≠ 0 →
      (∀ j gj cj, j < i → m.store.get? j = some (gj, cj) → gj % 2 = 0) →
      m.insert v = (⟨m.store.set i (g + 1, v)⟩, (g + 1, i))) := by
  intro C m v
  constructor
  · intro hall
    rcases SlotMap.insertGo_cases v m.store 0 with ⟨_, heq⟩ | ⟨i, g, c, hget, hodd, _, _⟩
    · simp [SlotMap.insert, heq]
    · exact absurd (hall (g, c) (List.get?_mem hget)) hodd
  · intro i g c hget hodd hfirst
    rcases SlotMap.insertGo_cases v m.store 0 with ⟨hall, _⟩ |
      ⟨j, gj, cj, hgetj, hoddj, hfirstj, heq⟩
    · exact absurd (hall (g, c) (List.get?_mem hget)) hodd
    · have hij : i = j := by
        rcases Nat.lt_trichotomy i j with hlt | heq2 | hgt
        · exact absurd (hfirstj i g c hlt hget) hodd
        · exact heq2
        · exact absurd (hfirst j gj cj hgt hgetj) hoddj
      subst hij
      rw [hget] at hgetj
      injection hgetj with hgc
      injection hgc with hg hc
      subst hg
      subst hc
      simp [SlotMap.insert, heq]

/-- Claim C6: `get` and `remove` are absent exactly when the index is out of
range or the stored generation differs; a successful `remove` sets the slot to
its old generation plus one with the old value and returns that value; a
failing `remove` leaves the map unchanged. -/
theorem slotMap_get_remove_validity : ∀ (C : Type) (m : SlotMap C) (e : Entity),
    (m.get e = none ↔
      m.store.length ≤ e.2 ∨ ∃ g c, m.store.get? e.2 = some (g, c) ∧ g ≠ e.1) ∧
    ((m.remove e).2 = none ↔
      m.store.length ≤ e.2 ∨ ∃ g c, m.store.get? e.2 = some (g, c) ∧ g ≠ e.1) ∧
    (∀ g c, m.store.get? e.2 = some (g, c) → g = e.1 →
      (m.remove e).2 = some c ∧ (m.remove e).1.store = m.store.set e.2 (g + 1, c)) ∧
    ((m.remove e).2 = none → (m.remove e).1 = m) := by
  intro C m e
  rcases hm : m.store.get? e.2 with _ | ⟨g0, c0⟩
  · have hlen : m.store.length ≤ e.2 := List.get?_eq_none.mp hm
    refine ⟨?_, ?_, ?_, ?_⟩
    · rw [SlotMap.get_eq_none_oob hm]
      exact ⟨fun _ => Or.inl hlen, fun _ => rfl⟩
    · rw [SlotMap.remove_eq_none_oob hm]
      exact ⟨fun _ => Or.inl hlen, fun _ => rfl⟩
    · intro g c hget
      exact Option.noConfusion hget
    · intro _
      rw [SlotMap.remove_eq_none_oob hm]
  · have hlen : ¬ m.store.length ≤ e.2 := by
      rcases List.get?_eq_some.mp hm with ⟨hh, _⟩
      omega
    by_cases hgen : e.1 = g0
    · have hget : m.get e = some c0 := by
        rw [SlotMap.get_eq_some_slot hm, if_pos hgen]
      have hrem : m.remove e = (⟨m.store.set e.2 (g0 + 1, c0)⟩, some c0) := by
        rw [SlotMap.remove_eq_some_slot hm, if_pos hgen]
      refine ⟨?_, ?_, ?_, ?_⟩
      · rw [hget]
        constructor
        · intro hc
          exact Option.noConfusion hc
        · rintro (hc | ⟨g, c, hgc, hne⟩)
          · exact absurd hc hlen
          · injection hgc with hp
            injection hp with h1 h2
            exact absurd (h1.symm.trans hgen.symm) hne
      · rw [hrem]
        constructor
        · intro hc
          exact Option.noConfusion hc
        · rintro (hc | ⟨g, c, hgc, hne⟩)
          · exact absurd hc hlen
          · injection hgc with hp
            injection hp with h1 h2
            exact absurd (h1.symm.trans hgen.symm) hne
      · intro g c hget2 hgeq
        injection hget2 with hp
        injection hp with h1 h2
        subst h1
        subst h2
        rw [hrem]
        exact ⟨rfl, rfl⟩
      · intro habs
        simp [hrem] at habs
    · have hget : m.get e = none := by
        rw [SlotMap.get_eq_some_slot hm, if_neg hgen]
      have hrem : m.remove e = (m, none) := by
        rw [SlotMap.remove_eq_some_slot hm, if_neg hgen]
      refine ⟨?_, ?_, ?_, ?_⟩
      · rw [hget]
        exact ⟨fun _ => Or.inr ⟨g0, c0, rfl, fun h => hgen h.symm⟩, fun _ => rfl⟩
      · rw [hrem]
        exact ⟨fun _ => Or.inr ⟨g0, c0, rfl, fun h => hgen h.symm⟩, fun _ => rfl⟩
      · intro g c hget2 hgeq
        injection hget2 with hp
        injection hp with h1 h2
        subst h1
        exact absurd hgeq.symm hgen
      · intro _
        rw [hrem]

/-- One public mutating operation never lowers the generation stored at an
index that already has a slot (and never drops the slot). -/
theorem SlotMap.gen_mono_apply (m : SlotMap C) (op : Op C) (i : Nat) (g : Generation) (c : C)
    (h : m.store.get? i = some (g, c)) :
    ∃ gb cb, (m.apply op).store.get? i = some (gb, cb) ∧ g ≤ gb := by
  have hi : i < m.store.length := by
    rcases List.get?_eq_some.mp h with ⟨hh, _⟩
    exact hh
  cases op with
  | ins v =>
    rcases SlotMap.insertGo_cases v m.store 0 with ⟨_, heq⟩ | ⟨j, gj, cj, hget, _, _, heq⟩
    · refine ⟨g, c, ?_, le_refl g⟩
      simp only [SlotMap.apply, SlotMap.insert, heq]
      rw [List.get?_append hi]
      exact h
    · by_cases hij : j = i
      · subst hij
        rw [h] at hget
        injection hget with hp
        injection hp with h1 h2
        refine ⟨g + 1, v, ?_, by exact Int.le.intro 1 rfl⟩
        simp only [SlotMap.apply, SlotMap.insert, heq]
        rw [← h1]
        exact List.get?_set_eq_of_lt (g + 1, v) hi
      · refine ⟨g, c, ?_, le_refl g⟩
        simp only [SlotMap.apply, SlotMap.insert, heq]
        rw [List.get?_set_ne _ _ hij]
        exact h
  | rem e =>
    rcases hm : m.store.get? e.2 with _ | ⟨g0, c0⟩
    · refine ⟨g, c, ?_, le_refl g⟩
      simp only [SlotMap.apply, SlotMap.remove_eq_none_oob hm]
      exact h
    · by_cases hgen : e.1 = g0
      · have hrem : m.remove e = (⟨m.store.set e.2 (g0 + 1, c0)⟩, some c0) := by
          rw [SlotMap.remove_eq_some_slot hm, if_pos hgen]
        by_cases hie : e.2 = i
        · subst hie
          rw [h] at hm
          injection hm with hp
          injection hp with h1 h2
          refine ⟨g0 + 1, c0, ?_, by rw [h1]; exact Int.le.intro 1 rfl⟩
          simp only [SlotMap.apply, hrem]
          exact List.get?_set_eq_of_lt (g0 + 1, c0) hi
        · refine ⟨g, c, ?_, le_refl g⟩
          simp only [SlotMap.apply, hrem]
          rw [List.get?_set_ne _ _ hie]
          exact h
      · have hrem : m.remove e = (m, none) := by
          rw [SlotMap.remove_eq_some_slot hm, if_neg hgen]
        refine ⟨g, c, ?_, le_refl g⟩
        simp only [SlotMap.apply, hrem]
        exact h

/-- A sequence of public mutating operations never lowers the generation
stored at an index that already has a slot. -/
theorem SlotMap.gen_mono_applyAll (ops : List (Op C)) :
    ∀ (m : SlotMap C) (i : Nat) (g : Generation) (c : C),
      m.store.get? i = some (g, c) →
      ∃ gb cb, (m.applyAll ops).store.get? i = some (gb, cb) ∧ g ≤ gb := by
  induction ops with
  | nil =>
    intro m i g c h
    exact ⟨g, c, h, le_refl g⟩
  | cons op rest ih =>
    intro m i g c h
    obtain ⟨gb, cb, hb, hle⟩ := SlotMap.gen_mono_apply m op i g c h
    obtain ⟨gc, cc, hc, hle2⟩ := ih (m.apply op) i gb cb hb
    refine ⟨gc, cc, ?_, le_trans hle hle2⟩
    simpa [SlotMap.applyAll] using hc

/-- Claim C1: insert, remove, then an insert that reuses the same index: the
new entity has a strictly larger generation, hence differs from the old one,
and the old entity stays absent under every later sequence of public
operations (the non-mutating operations read the state unchanged). -/
theorem slotMap_non_resurrection (C : Type) (s0 s1 s2 s3 : SlotMap C)
    (v1 v2 : C) (e1 e2 : Entity) (r : Option C)
    (h1 : s0.insert v1 = (s1, e1))
    (h2 : s1.remove e1 = (s2, r))
    (h3 : s2.insert v2 = (s3, e2))
    (hidx : e2.2 = e1.2) :
    r = some v1 ∧ e1.1 < e2.1 ∧ e1 ≠ e2 ∧
      ∀ ops : List (Op C), (s3.applyAll ops).get e1 = none := by
  have hslot : s1.store.get? e1.2 = some (e1.1, v1) := by
    have := SlotMap.insert_get?_self s0 v1
    rw [h1] at this
    exact this
  have hlt : e1.2 < s1.store.length := by
    rcases List.get?_eq_some.mp hslot with ⟨hh, _⟩
    exact hh
  have hrem : s1.remove e1 = (⟨s1.store.set e1.2 (e1.1 + 1, v1)⟩, some v1) := by
    rw [SlotMap.remove_eq_some_slot hslot, if_pos rfl]
  rw [hrem] at h2
  injection h2 with h2s h2r
  have hslot2 : s2.store.get? e1.2 = some (e1.1 + 1, v1) := by
    rw [← h2s]
    exact List.get?_set_eq_of_lt (e1.1 + 1, v1) hlt
  have hlen2 : s2.store.length = s1.store.length := by
    rw [← h2s]
    exact List.length_set s1.store e1.2 (e1.1 + 1, v1)
  have hlt2 : e1.2 < s2.store.length := by
    rw [hlen2]
    exact hlt
  -- the second insertion must have reused the slot of e1
  rcases SlotMap.insertGo_cases v2 s2.store 0 with ⟨_, heq⟩ | ⟨j, gj, cj, hgetj, _, _, heq⟩
  · exfalso
    have hxx : e2.2 = s2.store.length := by
      have h3x : (⟨(s2.store ++ [(0, v2)] : List (Generation × C))⟩,
          ((0 : Generation), 0 + s2.store.length)) = (s3, e2) := by
        rw [← h3, SlotMap.insert, heq]
      injection h3x with h3s h3e
      rw [← h3e]
      simp
    rw [hidx] at hxx
    rw [hxx] at hlt2
    exact lt_irrefl _ hlt2
  · have h3x : ((⟨s2.store.set j (gj + 1, v2)⟩ : SlotMap C), (gj + 1, 0 + j)) = (s3, e2) := by
      rw [← h3, SlotMap.insert, heq]
    injection h3x with h3s h3e
    have hj : j = e1.2 := by
      have hx : e2.2 = 0 + j := by rw [← h3e]
      rw [hidx] at hx
      simpa using hx.symm
    subst hj
    rw [hslot2] at hgetj
    injection hgetj with hp
    injection hp with hg hc
    have he2 : e2.1 = e1.1 + 1 + 1 := by
      rw [← h3e, ← hg]
    have hslot3 : s3.store.get? e1.2 = some (e1.1 + 1 + 1, v2) := by
      rw [← h3s, hg]
      exact List.get?_set_eq_of_lt (gj + 1, v2) hlt2
    refine ⟨h2r.symm, ?_, ?_, ?_⟩
    · rw [he2]
      exact intLtSucc2 e1.1
    · intro hcon
      have hx : e1.1 = e2.1 := by rw [hcon]
      rw [he2] at hx
      exact intNeSucc2 e1.1 hx
    · intro ops
      obtain ⟨gb, cb, hb, hle⟩ := SlotMap.gen_mono_applyAll ops s3 e1.2 (e1.1 + 1 + 1) v2 hslot3
      rw [SlotMap.get_eq_some_slot hb]
      rw [if_neg ?_]
      intro hcc
      rw [← hcc] at hle
      exact intNotSucc2Le e1.1 hle

/-- Witness for claim C1 at a concrete run: insert 5 into the empty map,
remove the entity, insert 7 into the reused slot. -/
theorem slotMap_non_resurrection_witness :
    (some 5 : Option Nat) = some 5 ∧ (0 : Generation) < 2 ∧
      ((0, 0) : Entity) ≠ ((2, 0) : Entity) ∧
      ∀ ops : List (Op Nat), ((⟨[(2, 7)]⟩ : SlotMap Nat).applyAll ops).get (0, 0) = none :=
  slotMap_non_resurrection Nat ⟨[]⟩ ⟨[(0, 5)]⟩ ⟨[(1, 5)]⟩ ⟨[(2, 7)]⟩ 5 7 (0, 0) (2, 0)
    (some 5) rfl rfl rfl rfl

/-- Membership in the arena traversal: a pair is yielded exactly when its
index holds a slot with that generation and value and the generation is even. -/
theorem SlotMap.iterGo_mem (g : Generation) (v : C) :
    ∀ (store : List (Generation × C)) (k j : Nat),
      ((g, j), v) ∈ SlotMap.iterGo store k ↔
        ∃ i, j = k + i ∧ store.get? i = some (g, v) ∧ g % 2 = 0 := by
  intro store
  induction store with
  | nil =>
    intro k j
    simp [SlotMap.iterGo]
  | cons slot rest ih =>
    intro k j
    rw [SlotMap.iterGo]
    constructor
    · intro hmem
      rcases List.mem_append.mp hmem with h1 | h2
      · by_cases hpar : slot.1 % 2 = 0
        · rw [if_pos hpar] at h1
          have hx := List.mem_singleton.mp h1
          injection hx with hx1 hx2
          injection hx1 with hg hj
          refine ⟨0, by omega, ?_, by rw [hg]; exact hpar⟩
          rw [hg, hx2]
          simp
        · rw [if_neg hpar] at h1
          cases h1
      · obtain ⟨i, hji, hget, hp⟩ := (ih (k + 1) j).mp h2
        exact ⟨i + 1, by omega, by simpa using hget, hp⟩
    · rintro ⟨i, rfl, hget, hp⟩
      cases i with
      | zero =>
        apply List.mem_append.mpr
        left
        have hslot : slot = (g, v) := by
          simpa using hget
        rw [hslot, if_pos hp]
        simp
      | succ i =>
        apply List.mem_append.mpr
        right
        apply (ih (k + 1) (k + (i + 1))).mpr
        exact ⟨i, by omega, by simpa using hget, hp⟩

/-- Every index yielded by the arena traversal is at least the start index. -/
theorem SlotMap.iterGo_idx_ge :
    ∀ (store : List (Generation × C)) (k : Nat) (p : Entity × C),
      p ∈ SlotMap.iterGo store k → k ≤ p.1.2 := by
  intro store
  induction store with
  | nil =>
    intro k p hp
    simp [SlotMap.iterGo] at hp
  | cons slot rest ih =>
    intro k p hp
    rw [SlotMap.iterGo] at hp
    rcases List.mem_append.mp hp with h1 | h2
    · by_cases hpar : slot.1 % 2 = 0
      · rw [if_pos hpar] at h1
        rw [List.mem_singleton.mp h1]
      · rw [if_neg hpar] at h1
        cases h1
    · exact le_trans (Nat.le_succ k) (ih (k + 1) p h2)

/-- The arena traversal yields indices in strictly increasing order. -/
theorem SlotMap.iterGo_pairwise :
    ∀ (store : List (Generation × C)) (k : Nat),
      List.Pairwise (fun a b => a.1.2 < b.1.2) (SlotMap.iterGo store k) := by
  intro store
  induction store with
  | nil =>
    intro k
    simp [SlotMap.iterGo]
  | cons slot rest ih =>
    intro k
    rw [SlotMap.iterGo]
    apply List.pairwise_append.mpr
    refine ⟨?_, ih (k + 1), ?_⟩
    · by_cases hpar : slot.1 % 2 = 0
      · rw [if_pos hpar]
        simp
      · rw [if_neg hpar]
        simp
    · intro a ha b hb
      have hbk := SlotMap.iterGo_idx_ge rest (k + 1) b hb
      by_cases hpar : slot.1 % 2 = 0
      · rw [if_pos hpar] at ha
        rw [List.mem_singleton.mp ha]
        exact hbk
      · rw [if_neg hpar] at ha
        cases ha

/-- Membership in the overlay traversal: a pair is yielded exactly when its
index holds a non-null slot with that generation and value. -/
theorem SecondaryMap.iterGo_mem_sec (g : Generation) (v : C) :
    ∀ (store : List (Option (Generation × C))) (k j : Nat),
      ((g, j), v) ∈ SecondaryMap.iterGo store k ↔
        ∃ i, j = k + i ∧ store.get? i = some (some (g, v)) := by
  intro store
  induction store with
  | nil =>
    intro k j
    simp [SecondaryMap.iterGo]
  | cons slot rest ih =>
    intro k j
    rcases slot with _ | s
    · rw [SecondaryMap.iterGo]
      simp only [List.nil_append]
      constructor
      · intro hmem
        obtain ⟨i, hji, hget⟩ := (ih (k + 1) j).mp hmem
        exact ⟨i + 1, by omega, by simpa using hget⟩
      · rintro ⟨i, rfl, hget⟩
        cases i with
        | zero => simp at hget
        | succ i =>
          apply (ih (k + 1) (k + (i + 1))).mpr
          exact ⟨i, by omega, by simpa using hget⟩
    · rw [SecondaryMap.iterGo]
      constructor
      · intro hmem
        rcases List.mem_append.mp hmem with h1 | h2
        · have hx := List.mem_singleton.mp h1
          injection hx with hx1 hx2
          injection hx1 with hg hj
          refine ⟨0, by omega, ?_⟩
          rw [hg, hx2]
          simp
        · obtain ⟨i, hji, hget⟩ := (ih (k + 1) j).mp h2
          exact ⟨i + 1, by omega, by simpa using hget⟩
      · rintro ⟨i, rfl, hget⟩
        cases i with
        | zero =>
          apply List.mem_append.mpr
          left
          have hslot : s = (g, v) := by
            simpa using hget
          rw [hslot]
          simp
        | succ i =>
          apply List.mem_append.mpr
          right
          apply (ih (k + 1) (k + (i + 1))).mpr
          exact ⟨i, by omega, by simpa using hget⟩

/-- Every index yielded by the overlay traversal is at least the start index. -/
theorem SecondaryMap.iterGo_idx_ge_sec :
    ∀ (store : List (Option (Generation × C))) (k : Nat) (p : Entity × C),
      p ∈ SecondaryMap.iterGo store k → k ≤ p.1.2 := by
  intro store
  induction store with
  | nil =>
    intro k p hp
    simp [SecondaryMap.iterGo] at hp
  | cons slot rest ih =>
    intro k p hp
    rcases slot with _ | s
    · rw [SecondaryMap.iterGo] at hp
      simp only [List.nil_append] at hp
      exact le_trans (Nat.le_succ k) (ih (k + 1) p hp)
    · rw [SecondaryMap.iterGo] at hp
      rcases List.mem_append.mp hp with h1 | h2
      · rw [List.mem_singleton.mp h1]
      · exact le_trans (Nat.le_succ k) (ih (k + 1) p h2)

/-- The overlay traversal yields indices in strictly increasing order. -/
theorem SecondaryMap.iterGo_pairwise_sec :
    ∀ (store : List (Option (Generation × C))) (k : Nat),
      List.Pairwise (fun a b => a.1.2 < b.1.2) (SecondaryMap.iterGo store k) := by
  intro store
  induction store with
  | nil =>
    intro k
    simp [SecondaryMap.iterGo]
  | cons slot rest ih =>
    intro k
    rcases slot with _ | s
    · rw [SecondaryMap.iterGo]
      simp only [List.nil_append]
      exact ih (k + 1)
    · rw [SecondaryMap.iterGo]
      apply List.pairwise_append.mpr
      refine ⟨by simp, ih (k + 1), ?_⟩
      intro a ha b hb
      have hbk := SecondaryMap.iterGo_idx_ge_sec rest (k + 1) b hb
      rw [List.mem_singleton.mp ha]
      exact hbk

/-- Claim C7: for both maps, the traversal yields exactly the occupied
(respectively non-null) slots as entity-value pairs in strictly ascending
index order (the traversal is a pure function of the state), `len` counts
one full traversal, and `is_empty` holds exactly when that count is zero. -/
theorem iterate_len_empty_consistency : ∀ (C : Type) (m : SlotMap C) (n : SecondaryMap C),
    (∀ g j v, ((g, j), v) ∈ m.iter ↔ m.store.get? j = some (g, v) ∧ g % 2 = 0) ∧
    List.Pairwise (fun a b => a.1.2 < b.1.2) m.iter ∧
    m.len = m.iter.length ∧
    (m.is_empty = true ↔ m.iter.length = 0) ∧
    (∀ g j v, ((g, j), v) ∈ n.iter ↔ n.store.get? j = some (some (g, v))) ∧
    List.Pairwise (fun a b => a.1.2 < b.1.2) n.iter ∧
    n.len = n.iter.length ∧
    (n.is_empty = true ↔ n.iter.length = 0) := by
  intro C m n
  refine ⟨?_, SlotMap.iterGo_pairwise m.store 0, rfl, ?_, ?_,
    SecondaryMap.iterGo_pairwise_sec n.store 0, rfl, ?_⟩
  · intro g j v
    rw [SlotMap.iter, SlotMap.iterGo_mem g v m.store 0 j]
    constructor
    · rintro ⟨i, rfl, hget, hp⟩
      exact ⟨by simpa using hget, hp⟩
    · rintro ⟨hget, hp⟩
      exact ⟨j, by omega, hget, hp⟩
  · rw [SlotMap.is_empty, List.isEmpty_iff, List.length_eq_zero]
  · intro g j v
    rw [SecondaryMap.iter, SecondaryMap.iterGo_mem_sec g v n.store 0 j]
    constructor
    · rintro ⟨i, rfl, hget⟩
      simpa using hget
    · intro hget
      exact ⟨j, by omega, hget⟩
  · rw [SecondaryMap.is_empty, List.isEmpty_iff, List.length_eq_zero]

/-- Two bumps of an even counter keep it even, stated on the nose. -/
theorem intEvenSucc2 (x : Int) : x % 2 = 0 → (x + 1 + 1) % 2 = 0 := by omega

/-- Claim C8: the validity check compares generations exactly, not occupancy
parity; after a successful `remove` of an even-generation entity, the forged
entity with generation one higher reads the removed value, a further `remove`
with it succeeds too, and the slot ends occupied again (even generation, old
value, yielded by `iter`). -/
theorem slotMap_forged_entity_resurrects (C : Type) (s : SlotMap C)
    (g : Generation) (i : Idx) (c : C)
    (hpar : g % 2 = 0)
    (hsucc : (s.remove (g, i)).2 = some c) :
    (s.remove (g, i)).1.store.get? i = some (g + 1, c) ∧
    (g + 1) % 2 ≠ 0 ∧
    (s.remove (g, i)).1.get (g + 1, i) = some c ∧
    ((s.remove (g, i)).1.remove (g + 1, i)).2 = some c ∧
    ((s.remove (g, i)).1.remove (g + 1, i)).1.store.get? i = some (g + 1 + 1, c) ∧
    (g + 1 + 1) % 2 = 0 ∧
    ((g + 1 + 1, i), c) ∈ ((s.remove (g, i)).1.remove (g + 1, i)).1.iter := by
  rcases hm : s.store.get? i with _ | ⟨g0, c0⟩
  · rw [@SlotMap.remove_eq_none_oob C s (g, i) hm] at hsucc
    exact Option.noConfusion hsucc
  · have hrem := @SlotMap.remove_eq_some_slot C s (g, i) g0 c0 hm
    by_cases hg : g = g0
    · subst hg
      rw [if_pos rfl] at hrem
      rw [hrem] at hsucc
      injection hsucc with hc
      rw [hc] at hrem hm
      have hlt : i < s.store.length := by
        rcases List.get?_eq_some.mp hm with ⟨hh, _⟩
        exact hh
      have h1 : (s.remove (g, i)).1.store.get? i = some (g + 1, c) := by
        rw [hrem]
        exact List.get?_set_eq_of_lt (g + 1, c) hlt
      have hlt1 : i < (s.remove (g, i)).1.store.length := by
        rw [hrem]
        rw [List.length_set]
        exact hlt
      have hrem2 := @SlotMap.remove_eq_some_slot C (s.remove (g, i)).1 (g + 1, i) (g + 1) c h1
      rw [if_pos rfl] at hrem2
      have h2 : ((s.remove (g, i)).1.remove (g + 1, i)).1.store.get? i =
          some (g + 1 + 1, c) := by
        rw [hrem2]
        exact List.get?_set_eq_of_lt (g + 1 + 1, c) hlt1
      refine ⟨h1, intEvenSuccOdd g hpar, ?_, by rw [hrem2], h2, intEvenSucc2 g hpar, ?_⟩
      · rw [SlotMap.get_eq_some_slot h1, if_pos rfl]
      · rw [SlotMap.iter]
        apply (SlotMap.iterGo_mem (g + 1 + 1) c _ 0 i).mpr
        exact ⟨i, by omega, h2, intEvenSucc2 g hpar⟩
    · rw [if_neg hg] at hrem
      rw [hrem] at hsucc
      exact Option.noConfusion hsucc

/-- Witness for claim C8 at a concrete map holding one value. -/
theorem slotMap_forged_entity_witness :
    ((⟨[(0, 42)]⟩ : SlotMap Nat).remove (0, 0)).1.store.get? 0 = some (0 + 1, 42) ∧
    ((0 : Generation) + 1) % 2 ≠ 0 ∧
    ((⟨[(0, 42)]⟩ : SlotMap Nat).remove (0, 0)).1.get (0 + 1, 0) = some 42 ∧
    (((⟨[(0, 42)]⟩ : SlotMap Nat).remove (0, 0)).1.remove (0 + 1, 0)).2 = some 42 ∧
    (((⟨[(0, 42)]⟩ : SlotMap Nat).remove (0, 0)).1.remove (0 + 1, 0)).1.store.get? 0 =
      some (0 + 1 + 1, 42) ∧
    ((0 : Generation) + 1 + 1) % 2 = 0 ∧
    (((0 : Generation) + 1 + 1, 0), 42) ∈
      (((⟨[(0, 42)]⟩ : SlotMap Nat).remove (0, 0)).1.remove (0 + 1, 0)).1.iter :=
  slotMap_forged_entity_resurrects Nat ⟨[(0, 42)]⟩ 0 0 42 rfl rfl

/-- Bumping keeps a counter non-negative. -/
theorem intNonnegSucc (x : Int) : 0 ≤ x → 0 ≤ x + 1 := by omega

/-- One public mutating operation keeps every stored generation non-negative. -/
theorem SlotMap.apply_gens_nonneg (m : SlotMap C) (op : Op C)
    (h : ∀ sl ∈ m.store, 0 ≤ sl.1) : ∀ sl ∈ (m.apply op).store, 0 ≤ sl.1 := by
  cases op with
  | ins v =>
    rcases SlotMap.insertGo_cases v m.store 0 with ⟨_, heq⟩ | ⟨i, g, c, hget, _, _, heq⟩
    · intro sl hsl
      simp only [SlotMap.apply, SlotMap.insert, heq] at hsl
      rcases List.mem_append.mp hsl with h1 | h2
      · exact h sl h1
      · rw [List.mem_singleton.mp h2]
    · intro sl hsl
      simp only [SlotMap.apply, SlotMap.insert, heq] at hsl
      rcases List.mem_or_eq_of_mem_set hsl with h1 | rfl
      · exact h sl h1
      · exact intNonnegSucc g (h (g, c) (List.get?_mem hget))
  | rem e =>
    rcases hm : m.store.get? e.2 with _ | ⟨g0, c0⟩
    · intro sl hsl
      simp only [SlotMap.apply, @SlotMap.remove_eq_none_oob C m e hm] at hsl
      exact h sl hsl
    · have hrem := @SlotMap.remove_eq_some_slot C m e g0 c0 hm
      by_cases hg : e.1 = g0
      · rw [if_pos hg] at hrem
        intro sl hsl
        simp only [SlotMap.apply, hrem] at hsl
        rcases List.mem_or_eq_of_mem_set hsl with h1 | rfl
        · exact h sl h1
        · exact intNonnegSucc g0 (h (g0, c0) (List.get?_mem hm))
      · rw [if_neg hg] at hrem
        intro sl hsl
        simp only [SlotMap.apply, hrem] at hsl
        exact h sl hsl

/-- A sequence of public mutating operations keeps every stored generation
non-negative. -/
theorem SlotMap.applyAll_gens_nonneg (ops : List (Op C)) :
    ∀ (m : SlotMap C), (∀ sl ∈ m.store, 0 ≤ sl.1) →
      ∀ sl ∈ (m.applyAll ops).store, 0 ≤ sl.1 := by
  induction ops with
  | nil =>
    intro m h
    exact h
  | cons op rest ih =>
    intro m h sl hsl
    refine ih (m.apply op) (SlotMap.apply_gens_nonneg m op h) sl ?_
    simpa [SlotMap.applyAll] using hsl

/-- Claim C9: entities issued by `insert` and yielded by `iter` carry even
generations; from the empty map every reachable state stores only
non-negative generations; and the parity of a stored generation decides
whether `iter` yields that index. -/
theorem slotMap_generation_parity : ∀ (C : Type),
    (∀ (s : SlotMap C) (v : C), (s.insert v).2.1 % 2 = 0) ∧
    (∀ (s : SlotMap C) (p : Entity × C), p ∈ s.iter → p.1.1 % 2 = 0) ∧
    (∀ ops : List (Op C), ∀ sl ∈ (SlotMap.applyAll ⟨[]⟩ ops).store, 0 ≤ sl.1) ∧
    (∀ (s : SlotMap C) (i : Idx) (g : Generation) (v : C),
      s.store.get? i = some (g, v) → ((∃ p ∈ s.iter, p.1.2 = i) ↔ g % 2 = 0)) := by
  intro C
  refine ⟨?_, ?_, ?_, ?_⟩
  · intro s v
    rcases SlotMap.insertGo_cases v s.store 0 with ⟨_, heq⟩ | ⟨i, g, c, _, hodd, _, heq⟩
    · simp only [SlotMap.insert, heq]
      rfl
    · simp only [SlotMap.insert, heq]
      exact intOddSucc g hodd
  · intro s p hp
    obtain ⟨⟨pg, pj⟩, pv⟩ := p
    rw [SlotMap.iter] at hp
    obtain ⟨i2, _, _, hpar⟩ := (SlotMap.iterGo_mem pg pv s.store 0 pj).mp hp
    exact hpar
  · intro ops
    exact SlotMap.applyAll_gens_nonneg ops ⟨[]⟩ (by simp)
  · intro s i g v hget
    constructor
    · rintro ⟨p, hp, hpi⟩
      obtain ⟨⟨pg, pj⟩, pv⟩ := p
      rw [SlotMap.iter] at hp
      obtain ⟨i2, hji, hget2, hpar⟩ := (SlotMap.iterGo_mem pg pv s.store 0 pj).mp hp
      rw [Nat.zero_add] at hji
      have hpj : pj = i := hpi
      rw [hpj] at hji
      rw [← hji] at hget2
      rw [hget] at hget2
      injection hget2 with hpp
      injection hpp with hg2 hv2
      rw [hg2]
      exact hpar
    · intro hpar
      refine ⟨((g, i), v), ?_, rfl⟩
      rw [SlotMap.iter]
      exact (SlotMap.iterGo_mem g v s.store 0 i).mpr ⟨i, (Nat.zero_add i).symm, hget, hpar⟩

/-- A `fill` whose range stops at or before its start leaves the array
unchanged; this is the shape of every `fill` the source can reach, since its
guard runs the fill from `length` to an `entity` index at most `length`. -/
theorem jsFill_empty_range {α : Type} (l : List (Option α)) (v : Option α)
    (start stop : Nat) (h : stop ≤ start) : jsFill l v start stop = l := by
  rw [jsFill]
  have hx : ∀ p : Nat × Option α, (if start ≤ p.1 ∧ p.1 < stop then v else p.2) = p.2 := by
    intro p
    rw [if_neg]
    intro hc
    omega
  calc l.enum.map (fun p => if start ≤ p.1 ∧ p.1 < stop then v else p.2)
      = l.enum.map (fun p => p.2) := by
        apply List.map_congr_left
        intro p _
        exact hx p
    _ = l := List.enum_map_snd l

/-- The write of `SecondaryMap.insert` seen through the no-op fill. -/
theorem SecondaryMap.insert_store (m : SecondaryMap C) (e : Entity) (w : C) :
    (m.insert e w).store = jsSetGrow m.store e.2 (some (e.1, w)) := by
  rw [SecondaryMap.insert]
  by_cases hle : m.store.length ≥ e.2
  · rw [if_pos hle, jsFill_empty_range m.store none m.store.length e.2 hle]
  · rw [if_neg hle]

/-- Writing at an index grows the array to cover it. -/
theorem jsSetGrow_length {α : Type} (l : List (Option α)) (i : Nat) (x : Option α) :
    (jsSetGrow l i x).length = max l.length (i + 1) := by
  rw [jsSetGrow]
  by_cases hlt : i < l.length
  · rw [if_pos hlt, List.length_set]
    omega
  · rw [if_neg hlt]
    simp
    omega

/-- Reading back the written index. -/
theorem jsSetGrow_get?_self {α : Type} (l : List (Option α)) (i : Nat) (x : Option α) :
    (jsSetGrow l i x).get? i = some x := by
  rw [jsSetGrow]
  by_cases hlt : i < l.length
  · rw [if_pos hlt]
    exact List.get?_set_eq_of_lt x hlt
  · rw [if_neg hlt]
    have hlen : (l ++ List.replicate (i - l.length) none).length = i := by
      simp
      omega
    rw [List.get?_append_right (by omega)]
    rw [hlen]
    simp

/-- Reading back any other index: unchanged in the old range, an empty slot in
the freshly grown range, absent beyond the written index. -/
theorem jsSetGrow_get?_other {α : Type} (l : List (Option α)) (i j : Nat) (x : Option α)
    (h : j ≠ i) :
    (jsSetGrow l i x).get? j =
      if j < l.length then l.get? j else if j < i then some none else none := by
  rw [jsSetGrow]
  by_cases hlt : i < l.length
  · rw [if_pos hlt, List.get?_set_ne x l (fun hc => h hc.symm)]
    by_cases hj : j < l.length
    · rw [if_pos hj]
    · rw [if_neg hj, if_neg (by omega)]
      exact List.get?_len_le (by omega)
  · rw [if_neg hlt]
    have hlen : (l ++ List.replicate (i - l.length) none).length = i := by
      simp
      omega
    by_cases hj : j < l.length
    · rw [if_pos hj]
      rw [List.get?_append (by simp; omega)]
      exact List.get?_append hj
    · rw [if_neg hj]
      by_cases hji : j < i
      · rw [if_pos hji]
        rw [List.get?_append (by rw [hlen]; exact hji)]
        rw [List.get?_append_right (by omega)]
        rw [List.get?_eq_get (by simp; omega)]
        simp
      · rw [if_neg hji]
        rw [List.get?_append_right (by rw [hlen]; omega)]
        rw [hlen]
        apply List.get?_len_le
        simp
        omega

/-- Overlay read through an out-of-range index is absent. -/
theorem SecondaryMap.get_eq_none_oob_sec {m : SecondaryMap C} {e : Entity}
    (h : m.store.get? e.2 = none) : m.get e = none := by
  simp only [SecondaryMap.get, h]

/-- Overlay read of a null slot is absent. -/
theorem SecondaryMap.get_eq_none_null {m : SecondaryMap C} {e : Entity}
    (h : m.store.get? e.2 = some none) : m.get e = none := by
  simp only [SecondaryMap.get, h]

/-- Overlay read of a filled slot compares the generations. -/
theorem SecondaryMap.get_eq_some_slot_sec {m : SecondaryMap C} {e : Entity}
    {g : Generation} {c : C} (h : m.store.get? e.2 = some (some (g, c))) :
    m.get e = if e.1 = g then some c else none := by
  simp only [SecondaryMap.get, h]

/-- Claim C4: `SecondaryMap.insert` grows the backing store to cover the
index of the entity (freshly created intermediate slots read back empty),
unconditionally writes the tagged value there whatever was stored before,
and a `get` with that entity then returns the value. -/
theorem secondaryMap_insert_overwrites : ∀ (C : Type) (m : SecondaryMap C) (e : Entity) (w : C),
    (m.insert e w).store.length = max m.store.length (e.2 + 1) ∧
    (m.insert e w).store.get? e.2 = some (some (e.1, w)) ∧
    (∀ j, m.store.length ≤ j → j < e.2 → (m.insert e w).store.get? j = some none) ∧
    (m.insert e w).get e = some w := by
  intro C m e w
  have hst := SecondaryMap.insert_store m e w
  have hself : (m.insert e w).store.get? e.2 = some (some (e.1, w)) := by
    rw [hst]
    exact jsSetGrow_get?_self m.store e.2 (some (e.1, w))
  refine ⟨?_, hself, ?_, ?_⟩
  · rw [hst]
    exact jsSetGrow_length m.store e.2 (some (e.1, w))
  · intro j hj1 hj2
    rw [hst, jsSetGrow_get?_other m.store e.2 j (some (e.1, w)) (Nat.ne_of_lt hj2)]
    rw [if_neg (Nat.not_lt.mpr hj1), if_pos hj2]
  · rw [SecondaryMap.get_eq_some_slot_sec hself, if_pos rfl]

/-- Replacing one element changes a count by the balance of the old and new
elements. -/
theorem countP_set_balance {β : Type} (p : β → Bool) :
    ∀ (l : List β) (i : Nat) (x y : β), l.get? i = some y →
      (l.set i x).countP p + (if p y then 1 else 0) =
        l.countP p + (if p x then 1 else 0) := by
  intro l
  induction l with
  | nil =>
    intro i x y h
    cases h
  | cons a rest ih =>
    intro i x y h
    cases i with
    | zero =>
      injection h with hy
      subst hy
      rw [List.set_cons_zero, List.countP_cons, List.countP_cons]
      omega
    | succ i =>
      rw [List.set_cons_succ, List.countP_cons, List.countP_cons]
      have hx := ih i x y (by simpa using h)
      omega

/-- Fresh empty slots contribute nothing to the occupied count. -/
theorem countP_isSome_replicate_none {α : Type} (n : Nat) :
    (List.replicate n (none : Option α)).countP (fun o => o.isSome) = 0 := by
  induction n with
  | zero => rfl
  | succ n ih =>
    rw [List.replicate_succ, List.countP_cons]
    simp [ih]

/-- The overlay traversal counts exactly the non-null slots. -/
theorem SecondaryMap.iterGo_length :
    ∀ (store : List (Option (Generation × C))) (k : Nat),
      (SecondaryMap.iterGo store k).length = store.countP (fun o => o.isSome) := by
  intro store
  induction store with
  | nil =>
    intro k
    rfl
  | cons slot rest ih =>
    intro k
    rcases slot with _ | s
    · rw [SecondaryMap.iterGo]
      simp only [List.nil_append]
      rw [ih (k + 1), List.countP_cons]
      simp
    · rw [SecondaryMap.iterGo]
      simp only [List.singleton_append, List.length_cons]
      rw [ih (k + 1), List.countP_cons]
      simp

/-- Claim C10: `SecondaryMap.insert` changes the observable state only at the
index of the entity: at any other index, `get` is unchanged, `iter` yields the
same pairs, and the occupied count changes by at most one (it stays or grows
by one). -/
theorem secondaryMap_insert_frame :
    ∀ (C : Type) (m : SecondaryMap C) (e : Entity) (w : C) (j : Idx),
      j ≠ e.2 →
      (∀ g, (m.insert e w).get (g, j) = m.get (g, j)) ∧
      (∀ g v, (((g, j), v) ∈ (m.insert e w).iter ↔ ((g, j), v) ∈ m.iter)) ∧
      ((m.insert e w).len = m.len ∨ (m.insert e w).len = m.len + 1) := by
  intro C m e w j hj
  have hst := SecondaryMap.insert_store m e w
  have hoth : (m.insert e w).store.get? j =
      if j < m.store.length then m.store.get? j else if j < e.2 then some none else none := by
    rw [hst]
    exact jsSetGrow_get?_other m.store e.2 j (some (e.1, w)) hj
  refine ⟨?_, ?_, ?_⟩
  · intro g
    by_cases hjl : j < m.store.length
    · rw [if_pos hjl] at hoth
      rcases hmj : m.store.get? j with _ | ⟨_ | ⟨g0, c0⟩⟩
      · rw [@SecondaryMap.get_eq_none_oob_sec C (m.insert e w) (g, j) (by rw [hoth]; exact hmj),
          @SecondaryMap.get_eq_none_oob_sec C m (g, j) hmj]
      · rw [@SecondaryMap.get_eq_none_null C (m.insert e w) (g, j) (by rw [hoth]; exact hmj),
          @SecondaryMap.get_eq_none_null C m (g, j) hmj]
      · rw [@SecondaryMap.get_eq_some_slot_sec C (m.insert e w) (g, j) g0 c0
          (by rw [hoth]; exact hmj), @SecondaryMap.get_eq_some_slot_sec C m (g, j) g0 c0 hmj]
    · rw [if_neg hjl] at hoth
      have hmj : m.store.get? j = none := List.get?_len_le (Nat.not_lt.mp hjl)
      rw [@SecondaryMap.get_eq_none_oob_sec C m (g, j) hmj]
      by_cases hje : j < e.2
      · rw [if_pos hje] at hoth
        exact @SecondaryMap.get_eq_none_null C (m.insert e w) (g, j) hoth
      · rw [if_neg hje] at hoth
        exact @SecondaryMap.get_eq_none_oob_sec C (m.insert e w) (g, j) hoth
  · intro g v
    rw [SecondaryMap.iter, SecondaryMap.iter,
      SecondaryMap.iterGo_mem_sec g v (m.insert e w).store 0 j,
      SecondaryMap.iterGo_mem_sec g v m.store 0 j]
    constructor
    · rintro ⟨i, hji, hget⟩
      rw [Nat.zero_add] at hji
      rw [← hji] at hget
      rw [hoth] at hget
      by_cases hjl : j < m.store.length
      · rw [if_pos hjl] at hget
        exact ⟨j, (Nat.zero_add j).symm, hget⟩
      · rw [if_neg hjl] at hget
        by_cases hje : j < e.2
        · rw [if_pos hje] at hget
          injection hget with hx
          exact Option.noConfusion hx
        · rw [if_neg hje] at hget
          exact Option.noConfusion hget
    · rintro ⟨i, hji, hget⟩
      rw [Nat.zero_add] at hji
      rw [← hji] at hget
      have hjl : j < m.store.length := by
        by_contra hcon
        rw [List.get?_len_le (Nat.not_lt.mp hcon)] at hget
        exact Option.noConfusion hget
      refine ⟨j, (Nat.zero_add j).symm, ?_⟩
      rw [hoth, if_pos hjl]
      exact hget
  · have hl1 : (m.insert e w).len = (m.insert e w).store.countP (fun o => o.isSome) :=
      SecondaryMap.iterGo_length (m.insert e w).store 0
    have hl2 : m.len = m.store.countP (fun o => o.isSome) :=
      SecondaryMap.iterGo_length m.store 0
    rw [hl1, hl2, hst, jsSetGrow]
    by_cases hlt : e.2 < m.store.length
    · rw [if_pos hlt]
      have hy : ∃ y, m.store.get? e.2 = some y := by
        rcases hx : m.store.get? e.2 with _ | y
        · exact absurd (List.get?_eq_none.mp hx) (Nat.not_le.mpr hlt)
        · exact ⟨y, rfl⟩
      obtain ⟨y, hy⟩ := hy
      have hbal := countP_set_balance (fun o => o.isSome) m.store e.2 (some (e.1, w)) y hy
      rcases y with _ | y0
      · right
        simpa using hbal
      · left
        have hb2 : (m.store.set e.2 (some (e.1, w))).countP (fun o => o.isSome) + 1 =
            m.store.countP (fun o => o.isSome) + 1 := by
          simpa using hbal
        exact Nat.add_right_cancel hb2
    · rw [if_neg hlt]
      right
      rw [List.countP_append, List.countP_append, countP_isSome_replicate_none]
      simp

/-- Witness for claim C10: inserting at index 1 of the empty overlay leaves
index 0 unobserved and grows the count by one. -/
theorem secondaryMap_insert_frame_witness :
    (∀ g, ((⟨[]⟩ : SecondaryMap Nat).insert (0, 1) 5).get (g, 0) =
      (⟨[]⟩ : SecondaryMap Nat).get (g, 0)) ∧
    (∀ g v, (((g, 0), v) ∈ ((⟨[]⟩ : SecondaryMap Nat).insert (0, 1) 5).iter ↔
      ((g, 0), v) ∈ (⟨[]⟩ : SecondaryMap Nat).iter)) ∧
    (((⟨[]⟩ : SecondaryMap Nat).insert (0, 1) 5).len = (⟨[]⟩ : SecondaryMap Nat).len ∨
      ((⟨[]⟩ : SecondaryMap Nat).insert (0, 1) 5).len = (⟨[]⟩ : SecondaryMap Nat).len + 1) :=
  secondaryMap_insert_frame Nat ⟨[]⟩ (0, 1) 5 0 (by decide)
